import Mathlib

/-!
Shallow embedding of the `lvreuse` launch-vehicle reuse cost/performance
model, together with theorems checking its specification.

Python floating-point scalars are modelled as real numbers (`ℝ`), except in
the indirect-operations lookup table where exact rationals (`ℚ`) suffice and
keep everything computable.  Python integers are `ℕ`.  Python `range(a, b)`
is `pythonRange a b`.
-/

open Real

/-- Embedding of `cost_reduction_factor` from `src/tools.py`:
the arithmetic mean of `n ** (log p / log 2)` over the production numbers
in `prod_nums_list`, i.e. the TRANSCOST learning-curve average factor. -/
noncomputable def cost_reduction_factor (p : ℝ) (prod_nums_list : List ℕ) : ℝ :=
  (prod_nums_list.map (fun n : ℕ => (n : ℝ) ^ (Real.log p / Real.log 2))).sum
    / prod_nums_list.length

/-- Embedding of `unavail_mass` from `src/lvreuse/performance/unavail_mass.py`.
`H` is the added recovery-hardware fraction (written `a` in the spec),
`P` the propulsion exponent, `z_m` the recovered dry-mass fraction and
`E_1` the structural mass ratio without reuse hardware. -/
noncomputable def unavail_mass (H P z_m E_1 : ℝ) : ℝ :=
  let chi_r := H * z_m / (1 - H)
  (1 + chi_r + z_m / (1 - H) * (Real.exp P - 1))
    / (1 + chi_r + (1 - E_1) / E_1)

/-- Embedding of `inert_masses` from `src/lvreuse/performance/unavail_mass.py`:
returns the pair `(m_inert_1, m_inert_recov_1)`. -/
noncomputable def inert_masses (m_1 H z_m E_1 : ℝ) : ℝ × ℝ :=
  let chi_r := H * z_m / (1 - H)
  (m_1 * ((1 + chi_r) / (1 + chi_r + (1 - E_1) / E_1)),
   m_1 * ((z_m + chi_r) / (1 + chi_r + (1 - E_1) / E_1)))

/-- First-stage payload fraction → second-stage payload fraction, from the
fixed stage-mass-ratio constraint inside `payload_fixed_stages`
(`src/lvreuse/performance/payload.py`): `pi_2 = (y + 1) - y / pi_1`. -/
noncomputable def pi2_of (y pi_1 : ℝ) : ℝ := (y + 1) - y / pi_1

/-- The two-stage rocket-equation delta-v evaluated inside `root_fun` of
`payload_fixed_stages`:
`dv = -c_1*log(e_1 + (1-e_1)*pi_1) - c_2*log(e_2 + (1-e_2)*pi_2)`. -/
noncomputable def dv_of (c_1 c_2 e_1 e_2 y pi_1 : ℝ) : ℝ :=
  -c_1 * Real.log (e_1 + (1 - e_1) * pi_1)
    - c_2 * Real.log (e_2 + (1 - e_2) * pi2_of y pi_1)

/-- Embedding of the residual `root_fun` inside `payload_fixed_stages`.
In Python, when a logarithm argument is negative (or `pi_1 = 0`, which
propagates an infinity into a negative log argument) the computed `dv` is
NaN and `root_fun` returns `dv_mission`; we model that branch by the
predicate below.  The boundary case of a log argument exactly `0` yields an
infinite (non-NaN, nonzero) residual in Python; we fold it into the same
branch, which is equally nonzero whenever `dv_mission ≠ 0`. -/
noncomputable def root_fun (c_1 c_2 e_1 e_2 y dv_mission pi_1 : ℝ) : ℝ :=
  if pi_1 = 0 ∨ e_1 + (1 - e_1) * pi_1 ≤ 0 ∨ e_2 + (1 - e_2) * pi2_of y pi_1 ≤ 0 then
    dv_mission
  else
    dv_mission - dv_of c_1 c_2 e_1 e_2 y pi_1

/-- Abstract outcome of `scipy.optimize.fsolve` with `full_output=True`:
the solution estimate `x` ( = `x[0]`) and the convergence flag `ier`. -/
structure FsolveResult where
  x : ℝ
  ier : ℤ

/-- The heterogeneous return value of `payload_fixed_stages`: the NaN
sentinel, a bare payload fraction, or the `(pi_star, pi_1, pi_2)` tuple. -/
inductive PayloadResult where
  | nan : PayloadResult
  | scalar : ℝ → PayloadResult
  | triple : ℝ → ℝ → ℝ → PayloadResult

/-- Embedding of `payload_fixed_stages` from
`src/lvreuse/performance/payload.py`, parameterised by the abstract
root-finder outcome `res` (the call `fsolve(root_fun, pi_1_guess,
full_output=True)`).  Mirrors the source's control flow: `ier != 1` →
sentinel; solved `pi_star = pi_1 * pi_2 < 0` → sentinel; otherwise the
tuple or the bare fraction, according to `return_all_pis`. -/
noncomputable def payload_fixed_stages (y : ℝ) (res : FsolveResult)
    (return_all_pis : Bool) : PayloadResult :=
  if res.ier ≠ 1 then PayloadResult.nan
  else
    let pi_1 := res.x
    let pi_2 := pi2_of y pi_1
    let pi_star := pi_1 * pi_2
    if pi_star < 0 then PayloadResult.nan
    else if return_all_pis then PayloadResult.triple pi_star pi_1 pi_2
    else PayloadResult.scalar pi_star

/-- Embedding of `numpy.interp` for strictly increasing sample points,
given as parallel lists `xp`, `fp` (exact rational arithmetic): clamps to
the first value left of the table, to the last value right of it, and
interpolates linearly between bracketing points. -/
def np_interp (x : ℚ) : List ℚ → List ℚ → ℚ
  | x1 :: x2 :: xs, y1 :: y2 :: ys =>
      if x ≤ x1 then y1
      else if x ≤ x2 then y1 + (y2 - y1) * (x - x1) / (x2 - x1)
      else np_interp x (x2 :: xs) (y2 :: ys)
  | [_], [y1] => y1
  | _, _ => 0

/-- The TRANSCOST launch-provider-type category letter used as the key of
`ioc_data` in `src/indirect_ops.py`. -/
inductive ProviderType where
  | A : ProviderType
  | B : ProviderType
  | C : ProviderType
  deriving DecidableEq

/-- The hardcoded `ioc_data` lookup table of `src/indirect_ops.py`:
indirect-operations cost at launch rates 1..12 per year, per provider type. -/
def ioc_data : ProviderType → List ℚ
  | ProviderType.A => [65, 49, 42, 38, 35, 33, 31, 30, 29, 27, 26, 25]
  | ProviderType.B => [45, 34, 29, 27, 24, 23, 22, 21, 20, 19, 18, 17]
  | ProviderType.C => [32, 24, 22, 19, 18, 17, 16, 15, 14, 13, 12, 11]

/-- The `launch_rate_list = range(1, 13)` sample points of
`src/indirect_ops.py`, cast to rationals. -/
def launch_rate_list : List ℚ := (List.range' 1 12).map (fun n : ℕ => (n : ℚ))

/-- Embedding of `indirect_ops_cost` from `src/indirect_ops.py`:
`numpy.interp` over the hardcoded table. -/
def indirect_ops_cost (launch_rate : ℚ) (launch_provider_type : ProviderType) : ℚ :=
  np_interp launch_rate launch_rate_list (ioc_data launch_provider_type)

/-- Python `range(a, b)` as a list of naturals: `[a, a+1, ..., b-1]`
(empty when `b ≤ a`). -/
def pythonRange (a b : ℕ) : List ℕ := List.range' a (b - a)

/-- Python `math.ceil(a / b)` for naturals with `b ≥ 1` (exact for the
small positive operands used by the cost model). -/
def ceil_div (a b : ℕ) : ℕ := (a + b - 1) / b

/-- The production-cost CER coefficients of a `CERValues` instance
(`src/lvreuse/cost/CER_values.py`); only `prod_a`, `prod_x` enter the
production-cost claims. -/
structure CERVals where
  prod_a : ℝ
  prod_x : ℝ

/-- The element-specific cost factors of an `ElementCostFactors` instance
that enter `average_element_production_cost`. -/
structure ElementCostFactors where
  p : ℝ
  f8 : ℝ
  f10 : ℝ
  f11 : ℝ

/-- The vehicle-specific cost factors of a `VehicleCostFactors` instance
that enter the production-cost methods. -/
structure VehicleCostFactors where
  f0_prod : ℝ
  f9 : ℝ

/-- A `LaunchVehicleElement` (`src/lvreuse/cost/elements.py`): identifying
name and reference mass `m`. -/
structure LVElement where
  name : String
  m : ℝ

/-- Embedding of `LaunchVehicleElement.average_element_production_cost`
(`src/lvreuse/cost/elements.py`):
`prod_a * m**prod_x * f4_avg * f8 * f10 * f11`. -/
noncomputable def average_element_production_cost (e : LVElement) (CER_vals : CERVals)
    (ecf : ElementCostFactors) (element_prod_nums_list : List ℕ) : ℝ :=
  CER_vals.prod_a * e.m ^ CER_vals.prod_x
    * cost_reduction_factor ecf.p element_prod_nums_list
    * ecf.f8 * ecf.f10 * ecf.f11

/-- The `element_map` dictionary: element name ↦
`(CER_vals, element_cost_factors, num_elements_per_vehicle)`. -/
def ElementMap : Type := String → CERVals × ElementCostFactors × ℕ

/-- A `LaunchVehicle` (`src/lvreuse/cost/vehicle.py`): name, gross lift-off
weight `M0`, (possibly fractional) stage count `N` and element list. -/
structure LaunchVehicle where
  name : String
  M0 : ℝ
  N : ℝ
  element_list : List LVElement

/-- One loop iteration of
`LaunchVehicle.average_vehicle_production_cost`: expand the vehicle
production numbers to element serial numbers
`range(first*n - n + 1, last*n + 1)` and weight the element's average unit
cost by the per-vehicle unit count `n`.  The Python list indexing
`vehicle_prod_nums_list[0]` / `[-1]` (defined only for non-empty lists) is
rendered with `headD` / `getLastD`. -/
noncomputable def prod_contrib (element_map : ElementMap) (vehicle_prod_nums_list : List ℕ)
    (e : LVElement) : ℝ :=
  let (CER_vals, ecf, n) := element_map e.name
  let element_prod_nums_list :=
    pythonRange (vehicle_prod_nums_list.headD 0 * n - n + 1)
                (vehicle_prod_nums_list.getLastD 0 * n + 1)
  n * average_element_production_cost e CER_vals ecf element_prod_nums_list

/-- Embedding of `LaunchVehicle.average_vehicle_production_cost`
(`src/lvreuse/cost/vehicle.py`): sum the per-element contributions and
apply `f0_prod**N * f9` once. -/
noncomputable def average_vehicle_production_cost (v : LaunchVehicle)
    (vcf : VehicleCostFactors) (vehicle_prod_nums_list : List ℕ)
    (element_map : ElementMap) : ℝ :=
  vcf.f0_prod ^ v.N
    * (v.element_list.map (prod_contrib element_map vehicle_prod_nums_list)).sum
    * vcf.f9

/-- One loop iteration of `LaunchVehicle.average_prod_cost_per_flight`:
for an element listed in `element_reuses_dict` with `num_reuses > 1`, the
vehicle production numbers are first divided by `num_reuses` with ceiling
division before expansion, and the weighted unit cost is divided by
`num_reuses` again; otherwise identical to `prod_contrib`. -/
noncomputable def prod_contrib_per_flight (element_reuses_dict : String → Option ℕ)
    (element_map : ElementMap) (vehicle_prod_nums_list : List ℕ)
    (e : LVElement) : ℝ :=
  let (CER_vals, ecf, n) := element_map e.name
  match element_reuses_dict e.name with
  | some num_reuses =>
      if 1 < num_reuses then
        let element_prod_nums_list :=
          pythonRange (ceil_div (vehicle_prod_nums_list.headD 0) num_reuses * n - n + 1)
                      (ceil_div (vehicle_prod_nums_list.getLastD 0) num_reuses * n + 1)
        n * average_element_production_cost e CER_vals ecf element_prod_nums_list
          / num_reuses
      else prod_contrib element_map vehicle_prod_nums_list e
  | none => prod_contrib element_map vehicle_prod_nums_list e

/-- Embedding of `LaunchVehicle.average_prod_cost_per_flight`
(`src/lvreuse/cost/vehicle.py`). -/
noncomputable def average_prod_cost_per_flight (v : LaunchVehicle)
    (element_reuses_dict : String → Option ℕ) (element_map : ElementMap)
    (vcf : VehicleCostFactors) (vehicle_prod_nums_list : List ℕ) : ℝ :=
  vcf.f0_prod ^ v.N
    * (v.element_list.map
        (prod_contrib_per_flight element_reuses_dict element_map
          vehicle_prod_nums_list)).sum
    * vcf.f9

/-- Helper: a list of values each strictly above `c` has sum above
`c * length`. -/
lemma mul_length_lt_sum_map (f : ℕ → ℝ) (c : ℝ) :
    ∀ l : List ℕ, l ≠ [] → (∀ x ∈ l, c < f x) →
      c * l.length < (l.map f).sum := by
  intro l
  induction l with
  | nil => intro h; exact absurd rfl h
  | cons a t ih =>
      intro _ hall
      rcases eq_or_ne t [] with rfl | ht
      · simpa using hall a (by simp)
      · have h1 : c * t.length < (t.map f).sum :=
          ih ht (fun x hx => hall x (List.mem_cons_of_mem a hx))
        have h2 : c < f a := hall a (List.mem_cons_self a t)
        simp only [List.map_cons, List.sum_cons, List.length_cons]
        push_cast
        nlinarith

/-- C5: for `a ∈ [0,1)`, `P ≥ 0`, `z_m ∈ (0,1]`, `E_1 ∈ (0,1)`,
`unavail_mass` computes `chi_r = a*z_m/(1-a)` and returns
`(1 + chi_r + z_m/(1-a)*(exp P - 1)) / (1 + chi_r + (1-E_1)/E_1)`, with no
error conditions (the precondition `a ≠ 1` is the caller's
responsibility). -/
theorem unavail_mass_formula (a P z_m E_1 : ℝ) (ha0 : 0 ≤ a) (ha1 : a < 1)
    (hP : 0 ≤ P) (hz0 : 0 < z_m) (hz1 : z_m ≤ 1) (hE0 : 0 < E_1)
    (hE1 : E_1 < 1) :
    unavail_mass a P z_m E_1 =
      (1 + a * z_m / (1 - a) + z_m / (1 - a) * (Real.exp P - 1))
        / (1 + a * z_m / (1 - a) + (1 - E_1) / E_1) := rfl

/-- Witness for C5 at `a = 0`, `P = 0`, `z_m = 1`, `E_1 = 1/2`. -/
theorem unavail_mass_formula_witness :
    unavail_mass 0 0 1 (1/2) =
      (1 + 0 * 1 / (1 - 0) + 1 / (1 - 0) * (Real.exp 0 - 1))
        / (1 + 0 * 1 / (1 - 0) + (1 - 1/2) / (1/2)) :=
  unavail_mass_formula 0 0 1 (1/2) (by norm_num) (by norm_num) (by norm_num)
    (by norm_num) (by norm_num) (by norm_num) (by norm_num)

/-- C10: for `m_1 > 0`, `a ∈ [0,1)`, `z_m ∈ (0,1]`, `E_1 ∈ (0,1)`, the pair
returned by `inert_masses` satisfies `m_inert_recov_1 ≤ m_inert_1`, their
difference is `m_1 * (1 - z_m) / (1 + chi_r + (1-E_1)/E_1)` with
`chi_r = a*z_m/(1-a)`, and the two coincide exactly when `z_m = 1`. -/
theorem inert_masses_recov_le (m_1 a z_m E_1 : ℝ) (hm : 0 < m_1)
    (ha0 : 0 ≤ a) (ha1 : a < 1) (hz0 : 0 < z_m) (hz1 : z_m ≤ 1)
    (hE0 : 0 < E_1) (hE1 : E_1 < 1) :
    (inert_masses m_1 a z_m E_1).2 ≤ (inert_masses m_1 a z_m E_1).1 ∧
    (inert_masses m_1 a z_m E_1).1 - (inert_masses m_1 a z_m E_1).2
      = m_1 * (1 - z_m) / (1 + a * z_m / (1 - a) + (1 - E_1) / E_1) ∧
    ((inert_masses m_1 a z_m E_1).2 = (inert_masses m_1 a z_m E_1).1 ↔
      z_m = 1) := by
  have h1a : (0:ℝ) < 1 - a := by linarith
  have hchi : 0 ≤ a * z_m / (1 - a) :=
    div_nonneg (mul_nonneg ha0 hz0.le) h1a.le
  have hK : 0 < (1 - E_1) / E_1 := div_pos (by linarith) hE0
  have hD : 0 < 1 + a * z_m / (1 - a) + (1 - E_1) / E_1 := by linarith
  have key : (inert_masses m_1 a z_m E_1).1 - (inert_masses m_1 a z_m E_1).2
      = m_1 * (1 - z_m) / (1 + a * z_m / (1 - a) + (1 - E_1) / E_1) := by
    simp only [inert_masses]
    ring
  have hge : 0 ≤ m_1 * (1 - z_m) / (1 + a * z_m / (1 - a) + (1 - E_1) / E_1) :=
    div_nonneg (mul_nonneg hm.le (by linarith)) hD.le
  refine ⟨by linarith, key, ?_, ?_⟩
  · intro h
    have h0 : m_1 * (1 - z_m) / (1 + a * z_m / (1 - a) + (1 - E_1) / E_1) = 0 := by
      rw [← key]; linarith
    rcases div_eq_zero_iff.mp h0 with hnum | hden
    · rcases mul_eq_zero.mp hnum with hc | hc
      · exact absurd hc hm.ne'
      · linarith
    · exact absurd hden hD.ne'
  · intro h
    subst h
    have h0 : (inert_masses m_1 a 1 E_1).1 - (inert_masses m_1 a 1 E_1).2 = 0 := by
      rw [key]; norm_num
    linarith

/-- Witness for C10 at `m_1 = 1`, `a = 1/2`, `z_m = 1/2`, `E_1 = 1/2`. -/
theorem inert_masses_recov_le_witness :
    (inert_masses 1 (1/2) (1/2) (1/2)).2 ≤ (inert_masses 1 (1/2) (1/2) (1/2)).1 ∧
    (inert_masses 1 (1/2) (1/2) (1/2)).1 - (inert_masses 1 (1/2) (1/2) (1/2)).2
      = 1 * (1 - 1/2) / (1 + (1/2) * (1/2) / (1 - 1/2) + (1 - 1/2) / (1/2)) ∧
    ((inert_masses 1 (1/2) (1/2) (1/2)).2 = (inert_masses 1 (1/2) (1/2) (1/2)).1 ↔
      (1:ℝ)/2 = 1) :=
  inert_masses_recov_le 1 (1/2) (1/2) (1/2) (by norm_num) (by norm_num)
    (by norm_num) (by norm_num) (by norm_num) (by norm_num) (by norm_num)

/-- C7: learning-curve identities of `cost_reduction_factor`: the factor is
`1` exactly when `p = 1` (any non-empty list) or when the list is `[1]`;
for `p < 1` it is the arithmetic mean of `n ** (log p / log 2)` over the
listed serials and strictly decreases as later serial numbers are appended
to a consecutive run starting at 1. -/
theorem cost_reduction_factor_props :
    (∀ l : List ℕ, l ≠ [] → cost_reduction_factor 1 l = 1)
  ∧ (∀ p : ℝ, 0 < p → p < 1 → cost_reduction_factor p [1] = 1)
  ∧ (∀ p : ℝ, 0 < p → p < 1 → ∀ k : ℕ, 1 ≤ k →
      cost_reduction_factor p (List.range' 1 (k+1))
        < cost_reduction_factor p (List.range' 1 k))
  ∧ (∀ (p : ℝ) (l : List ℕ), cost_reduction_factor p l
      = (l.map (fun n : ℕ => (n : ℝ) ^ (Real.log p / Real.log 2))).sum
          / l.length) := by
  refine ⟨?_, ?_, ?_, fun p l => rfl⟩
  · intro l hl
    have hlen : (l.length : ℝ) ≠ 0 :=
      Nat.cast_ne_zero.mpr (List.length_pos_of_ne_nil hl).ne'
    have hmap : (l.map (fun n : ℕ => (n : ℝ) ^ (Real.log 1 / Real.log 2))).sum
        = (l.length : ℝ) := by
      have hcongr : l.map (fun n : ℕ => (n : ℝ) ^ (Real.log 1 / Real.log 2))
          = l.map (fun _ : ℕ => (1 : ℝ)) := by
        refine List.map_congr_left ?_
        intro a _
        rw [Real.log_one, zero_div, Real.rpow_zero]
      rw [hcongr, List.map_const', List.sum_replicate, nsmul_eq_mul, mul_one]
    rw [cost_reduction_factor, hmap, div_self hlen]
  · intro p hp0 hp1
    simp [cost_reduction_factor, Real.one_rpow]
  · intro p hp0 hp1 k hk
    have he : Real.log p / Real.log 2 < 0 :=
      div_neg_of_neg_of_pos (Real.log_neg hp0 hp1) (Real.log_pos (by norm_num))
    have hterm : ∀ i ∈ List.range' 1 k,
        (fun n : ℕ => (n : ℝ) ^ (Real.log p / Real.log 2)) (1 + k)
          < (fun n : ℕ => (n : ℝ) ^ (Real.log p / Real.log 2)) i := by
      intro i hi
      rw [List.mem_range'_1] at hi
      refine Real.rpow_lt_rpow_of_neg ?_ ?_ he
      · exact_mod_cast Nat.lt_of_lt_of_le Nat.zero_lt_one hi.1
      · exact_mod_cast hi.2
    have hne : List.range' 1 k ≠ [] := by
      rw [List.range'_ne_nil]
      omega
    have hsum := mul_length_lt_sum_map
      (fun n : ℕ => (n : ℝ) ^ (Real.log p / Real.log 2))
      (((1 + k : ℕ) : ℝ) ^ (Real.log p / Real.log 2))
      (List.range' 1 k) hne hterm
    rw [List.length_range'] at hsum
    push_cast at hsum
    have hconcat : List.range' 1 (k + 1) = List.range' 1 k ++ [1 + k] :=
      List.range'_1_concat 1 k
    rw [cost_reduction_factor, cost_reduction_factor, hconcat,
      List.map_append, List.sum_append, List.length_append]
    simp only [List.map_cons, List.map_nil, List.sum_cons, List.sum_nil,
      List.length_range', List.length_cons, List.length_nil]
    have hk0 : (0 : ℝ) < (k : ℝ) := by exact_mod_cast hk
    have hk1 : (0 : ℝ) < ((k + (0 + 1) : ℕ) : ℝ) := by positivity
    rw [div_lt_div_iff (by exact_mod_cast hk1) hk0]
    push_cast
    nlinarith [hsum]

/-- Witness for C7: `p = 1` over `[1,2]`, `p = 1/2` over `[1]`, and the
strict decrease from `[1]` to `[1,2]`. -/
theorem cost_reduction_factor_props_witness :
    cost_reduction_factor 1 [1, 2] = 1 ∧
    cost_reduction_factor (1/2) [1] = 1 ∧
    cost_reduction_factor (1/2) (List.range' 1 (1+1))
      < cost_reduction_factor (1/2) (List.range' 1 1) :=
  ⟨cost_reduction_factor_props.1 [1, 2] (by decide),
   cost_reduction_factor_props.2.1 (1/2) (by norm_num) (by norm_num),
   cost_reduction_factor_props.2.2.1 (1/2) (by norm_num) (by norm_num) 1
     (by norm_num)⟩

/-- Helper: closed form of `unavail_mass` with all inner fractions cleared,
valid for `t < 1`, `E > 0` and positive cleared denominator. -/
lemma unavail_mass_closed (t P z E : ℝ) (ht : t < 1) (hE : 0 < E)
    (hd : 0 < 1 - t + E * t * z) :
    unavail_mass t P z E
      = E * (1 + t * (z - 1) + z * (Real.exp P - 1)) / (1 - t + E * t * z) := by
  have h1t : (1 : ℝ) - t ≠ 0 := by linarith
  have hE' : E ≠ 0 := hE.ne'
  have hd' : 1 - t + E * t * z ≠ 0 := hd.ne'
  have hD : 1 + t * z / (1 - t) + (1 - E) / E
      = (1 - t + E * t * z) / ((1 - t) * E) := by
    field_simp
    ring
  have hN : 1 + t * z / (1 - t) + z / (1 - t) * (Real.exp P - 1)
      = (1 + t * (z - 1) + z * (Real.exp P - 1)) / (1 - t) := by
    field_simp
    ring
  rw [unavail_mass]
  rw [hD, hN, div_div_div_eq]
  rw [div_eq_div_iff (by positivity) hd']
  ring

/-- C6: boundary and monotonicity of the unavailable-mass model: with
`a = 0`, `P = 0`, `z_m = 1` the result is exactly `E_1`, and for fixed
`z_m ∈ (0,1]`, `E_1 ∈ (0,1)` the result strictly increases in `a` on
`[0,1)` (for `P ≥ 0`) and in `P` on `[0,∞)`. -/
theorem unavail_mass_boundary_mono :
    (∀ E_1 : ℝ, 0 < E_1 → E_1 < 1 → unavail_mass 0 0 1 E_1 = E_1)
  ∧ (∀ z_m E_1 P a a' : ℝ, 0 < z_m → z_m ≤ 1 → 0 < E_1 → E_1 < 1 → 0 ≤ P →
      0 ≤ a → a < a' → a' < 1 →
      unavail_mass a P z_m E_1 < unavail_mass a' P z_m E_1)
  ∧ (∀ z_m E_1 a P P' : ℝ, 0 < z_m → z_m ≤ 1 → 0 < E_1 → E_1 < 1 →
      0 ≤ a → a < 1 → 0 ≤ P → P < P' →
      unavail_mass a P z_m E_1 < unavail_mass a P' z_m E_1) := by
  refine ⟨?_, ?_, ?_⟩
  · intro E hE0 hE1
    rw [unavail_mass_closed 0 0 1 E (by norm_num) hE0 (by norm_num)]
    simp [Real.exp_zero]
  · intro z E P a a' hz hz1 hE0 hE1 hP ha0 haa ha1
    have hs1 : 1 ≤ Real.exp P := Real.one_le_exp hP
    have hza : 0 ≤ E * a * z := mul_nonneg (mul_nonneg hE0.le ha0) hz.le
    have hza' : 0 ≤ E * a' * z :=
      mul_nonneg (mul_nonneg hE0.le (by linarith)) hz.le
    have hd : 0 < 1 - a + E * a * z := by nlinarith
    have hd' : 0 < 1 - a' + E * a' * z := by nlinarith
    rw [unavail_mass_closed a P z E (by linarith) hE0 hd,
        unavail_mass_closed a' P z E ha1 hE0 hd']
    rw [div_lt_div_iff hd hd']
    have hEz : 0 < 1 - E * z := by nlinarith
    have hbr : 0 < z * ((1 - E) + (Real.exp P - 1) * (1 - E * z)) := by
      nlinarith [mul_nonneg (by linarith : (0:ℝ) ≤ Real.exp P - 1) hEz.le]
    nlinarith [mul_pos (mul_pos hE0 (by linarith : (0:ℝ) < a' - a)) hbr]
  · intro z E a P P' hz hz1 hE0 hE1 ha0 ha1 hP0 hPP
    have hza : 0 ≤ E * a * z := mul_nonneg (mul_nonneg hE0.le ha0) hz.le
    have hd : 0 < 1 - a + E * a * z := by nlinarith
    rw [unavail_mass_closed a P z E ha1 hE0 hd,
        unavail_mass_closed a P' z E ha1 hE0 hd]
    rw [div_lt_div_iff hd hd]
    have hexp : Real.exp P < Real.exp P' := Real.exp_lt_exp.mpr hPP
    nlinarith [mul_pos (mul_pos hE0 hd)
      (mul_pos hz (by linarith : (0:ℝ) < Real.exp P' - Real.exp P))]

/-- Witness for C6 at `E_1 = 1/2`, `z_m = 1`, and concrete increases in
`a` (0 to 1/2) and `P` (0 to 1). -/
theorem unavail_mass_boundary_mono_witness :
    unavail_mass 0 0 1 (1/2) = 1/2 ∧
    unavail_mass 0 0 1 (1/2) < unavail_mass (1/2) 0 1 (1/2) ∧
    unavail_mass 0 0 1 (1/2) < unavail_mass 0 1 1 (1/2) :=
  ⟨unavail_mass_boundary_mono.1 (1/2) (by norm_num) (by norm_num),
   unavail_mass_boundary_mono.2.1 1 (1/2) 0 0 (1/2) (by norm_num) (by norm_num)
     (by norm_num) (by norm_num) (by norm_num) (by norm_num) (by norm_num)
     (by norm_num),
   unavail_mass_boundary_mono.2.2 1 (1/2) 0 0 1 (by norm_num) (by norm_num)
     (by norm_num) (by norm_num) (by norm_num) (by norm_num) (by norm_num)
     (by norm_num)⟩

/-- Helper: the Python serial-number window `range(k*n - n + 1, k*n + 1)`
for vehicle build `k ≥ 1` is the block of `n` consecutive element serials
starting at `(k-1)*n + 1`. -/
lemma pythonRange_window (n k : ℕ) (hk : 1 ≤ k) :
    pythonRange (k * n - n + 1) (k * n + 1) = List.range' ((k - 1) * n + 1) n := by
  obtain ⟨k', rfl⟩ : ∃ k', k = k' + 1 := ⟨k - 1, by omega⟩
  have h1 : (k' + 1) * n - n = k' * n := by
    rw [add_mul, one_mul, Nat.add_sub_cancel]
  rw [pythonRange, h1, Nat.add_sub_cancel, add_mul, one_mul]
  congr 1
  omega

/-- C2: production-cost serial indexing in
`average_vehicle_production_cost`: vehicle build `k` consumes exactly
element serials `[(k-1)*n+1 .. k*n]`; in particular
`vehicle_prod_nums_list = [1]` expands to `[1..n]` and `[2]` to
`[n+1..2n]`; each element's average unit cost is weighted by `n` and the
vehicle-level factor `f0_prod**N * f9` is applied once to the sum. -/
theorem avg_vehicle_prod_cost_indexing :
    (∀ n k : ℕ, 1 ≤ k →
      pythonRange (k * n - n + 1) (k * n + 1)
        = List.range' ((k - 1) * n + 1) n)
  ∧ (∀ (emap : ElementMap) (e : LVElement) (CER : CERVals)
       (ecf : ElementCostFactors) (n : ℕ), emap e.name = (CER, ecf, n) →
      prod_contrib emap [1] e
        = n * average_element_production_cost e CER ecf (List.range' 1 n)
      ∧ prod_contrib emap [2] e
        = n * average_element_production_cost e CER ecf (List.range' (n + 1) n))
  ∧ (∀ (v : LaunchVehicle) (vcf : VehicleCostFactors) (vlist : List ℕ)
       (emap : ElementMap),
      average_vehicle_production_cost v vcf vlist emap
        = vcf.f0_prod ^ v.N
            * (v.element_list.map (prod_contrib emap vlist)).sum * vcf.f9) := by
  refine ⟨pythonRange_window, ?_, fun v vcf vlist emap => rfl⟩
  intro emap e CER ecf n hmap
  constructor
  · have h1 : pythonRange (([1] : List ℕ).headD 0 * n - n + 1)
        (([1] : List ℕ).getLastD 0 * n + 1) = List.range' 1 n := by
      simpa using pythonRange_window n 1 le_rfl
    simp only [prod_contrib, hmap, h1]
  · have h2 : pythonRange (([2] : List ℕ).headD 0 * n - n + 1)
        (([2] : List ℕ).getLastD 0 * n + 1) = List.range' (n + 1) n := by
      have := pythonRange_window n 2 (by norm_num)
      simpa [one_mul] using this
    simp only [prod_contrib, hmap, h2]

/-- Sample CER coefficients used by the concrete witnesses. -/
noncomputable def sampleCER : CERVals := ⟨2, 1⟩

/-- Sample element cost factors used by the concrete witnesses. -/
noncomputable def sampleECF : ElementCostFactors := ⟨1/2, 1, 1, 1⟩

/-- Sample vehicle cost factors used by the concrete witnesses. -/
noncomputable def sampleVCF : VehicleCostFactors := ⟨1, 1⟩

/-- Sample vehicle element used by the concrete witnesses. -/
noncomputable def sampleElement : LVElement := ⟨"core", 10⟩

/-- Sample element map (3 identical units per vehicle). -/
noncomputable def sampleMap : ElementMap := fun _ => (sampleCER, sampleECF, 3)

/-- Sample launch vehicle with a single element. -/
noncomputable def sampleVehicle : LaunchVehicle := ⟨"lv", 100, 2, [sampleElement]⟩

/-- Witness for C2 at `n = 3`, builds `1` and `2`, on the sample data. -/
theorem avg_vehicle_prod_cost_indexing_witness :
    pythonRange (2 * 3 - 3 + 1) (2 * 3 + 1) = List.range' ((2 - 1) * 3 + 1) 3 ∧
    prod_contrib sampleMap [1] sampleElement
      = 3 * average_element_production_cost sampleElement sampleCER sampleECF
            (List.range' 1 3) ∧
    average_vehicle_production_cost sampleVehicle sampleVCF [1] sampleMap
      = sampleVCF.f0_prod ^ sampleVehicle.N
          * (sampleVehicle.element_list.map (prod_contrib sampleMap [1])).sum
          * sampleVCF.f9 :=
  ⟨avg_vehicle_prod_cost_indexing.1 3 2 (by norm_num),
   (avg_vehicle_prod_cost_indexing.2.1 sampleMap sampleElement sampleCER
      sampleECF 3 rfl).1,
   avg_vehicle_prod_cost_indexing.2.2 sampleVehicle sampleVCF [1] sampleMap⟩

/-- Helper: first entry of a non-empty `range'`. -/
lemma range'_headD (s n : ℕ) (hn : 1 ≤ n) : (List.range' s n).headD 0 = s := by
  obtain ⟨m, rfl⟩ : ∃ m, n = m + 1 := ⟨n - 1, by omega⟩
  rw [List.range'_succ]
  rfl

/-- Helper: last entry of a non-empty `range'`. -/
lemma range'_getLastD (s n : ℕ) (hn : 1 ≤ n) :
    (List.range' s n).getLastD 0 = s + n - 1 := by
  rw [List.getLastD_eq_getLast?, List.getLast?_range']
  rw [if_neg (by omega)]
  rfl

/-- Helper: `ceil(1/N) = 1` for `N ≥ 1`. -/
lemma ceil_div_one (N : ℕ) (hN : 1 ≤ N) : ceil_div 1 N = 1 := by
  rw [ceil_div]
  rw [show 1 + N - 1 = N by omega]
  exact Nat.div_self hN

/-- Helper: `ceil(N/N) = 1` for `N ≥ 1`. -/
lemma ceil_div_self (N : ℕ) (hN : 1 ≤ N) : ceil_div N N = 1 := by
  rw [ceil_div]
  refine Nat.div_eq_of_lt_le (by omega) (by omega)

/-- C1: reuse amortization in `average_prod_cost_per_flight`: for an
element listed with `num_reuses = N > 1`, the vehicle production number
window is first divided by `N` with ceiling division before expansion to
element serials, and the element's weighted unit cost is divided by `N`
again; for `vehicle_prod_nums_list = [1..N]` the element's per-flight
contribution equals its unmodified per-vehicle-build contribution
(production numbers `[1]`) divided by `N`. -/
theorem avg_prod_cost_per_flight_amortization
    (reuses : String → Option ℕ) (emap : ElementMap) (e : LVElement)
    (CER : CERVals) (ecf : ElementCostFactors) (n N : ℕ)
    (hmap : emap e.name = (CER, ecf, n)) (hr : reuses e.name = some N)
    (hN : 1 < N) :
    (∀ vlist : List ℕ,
      prod_contrib_per_flight reuses emap vlist e
        = n * average_element_production_cost e CER ecf
            (pythonRange (ceil_div (vlist.headD 0) N * n - n + 1)
                         (ceil_div (vlist.getLastD 0) N * n + 1)) / N)
  ∧ prod_contrib_per_flight reuses emap (List.range' 1 N) e
      = prod_contrib emap [1] e / N := by
  have hgen : ∀ vlist : List ℕ,
      prod_contrib_per_flight reuses emap vlist e
        = n * average_element_production_cost e CER ecf
            (pythonRange (ceil_div (vlist.headD 0) N * n - n + 1)
                         (ceil_div (vlist.getLastD 0) N * n + 1)) / N := by
    intro vlist
    simp only [prod_contrib_per_flight, hmap, hr, hN, if_true]
  refine ⟨hgen, ?_⟩
  rw [hgen (List.range' 1 N)]
  rw [range'_headD 1 N (by omega), range'_getLastD 1 N (by omega)]
  rw [show 1 + N - 1 = N from by omega]
  rw [ceil_div_one N (by omega), ceil_div_self N (by omega)]
  simp only [prod_contrib, hmap, List.headD_cons, List.getLastD_cons,
    List.getLastD_nil]

/-- Sample reuse dictionary: every element is reused 5 times. -/
def sampleReuses : String → Option ℕ := fun _ => some 5

/-- Witness for C1 on the sample data with `N = 5` reuses, `n = 3` units
per vehicle, flights `[1..5]`. -/
theorem avg_prod_cost_per_flight_amortization_witness :
    prod_contrib_per_flight sampleReuses sampleMap (List.range' 1 5)
        sampleElement
      = prod_contrib sampleMap [1] sampleElement / ((5:ℕ):ℝ) ∧
    prod_contrib_per_flight sampleReuses sampleMap [7] sampleElement
      = ((3:ℕ):ℝ) * average_element_production_cost sampleElement sampleCER
          sampleECF
          (pythonRange (ceil_div (([7] : List ℕ).headD 0) 5 * 3 - 3 + 1)
                       (ceil_div (([7] : List ℕ).getLastD 0) 5 * 3 + 1))
          / ((5:ℕ):ℝ) :=
  ⟨(avg_prod_cost_per_flight_amortization sampleReuses sampleMap sampleElement
      sampleCER sampleECF 3 5 rfl rfl (by norm_num)).2,
   (avg_prod_cost_per_flight_amortization sampleReuses sampleMap sampleElement
      sampleCER sampleECF 3 5 rfl rfl (by norm_num)).1 [7]⟩

/-- Helper: case analysis of the return shape of `payload_fixed_stages`
with `return_all_pis = true`. -/
lemma payload_fixed_stages_cases (y : ℝ) (res : FsolveResult) :
    ((res.ier ≠ 1 ∨ res.x * pi2_of y res.x < 0) →
      payload_fixed_stages y res true = PayloadResult.nan)
  ∧ (res.ier = 1 → ¬ res.x * pi2_of y res.x < 0 →
      payload_fixed_stages y res true
        = PayloadResult.triple (res.x * pi2_of y res.x) res.x
            (pi2_of y res.x)) := by
  constructor
  · rintro (hier | hstar)
    · simp [payload_fixed_stages, hier]
    · rcases eq_or_ne res.ier 1 with h1 | h1
      · simp [payload_fixed_stages, h1, hstar]
      · simp [payload_fixed_stages, h1]
  · intro h1 hstar
    simp [payload_fixed_stages, h1, hstar]

/-- C9: with `return_all_pis = True`, `payload_fixed_stages` returns the
single scalar NaN sentinel (not a 3-tuple) whenever the evaluation fails
(`ier != 1` or `pi_star < 0`), and produces the `(pi_star, pi_1, pi_2)`
tuple only on success — callers must handle two return shapes. -/
theorem payload_return_shape (y : ℝ) (res : FsolveResult) :
    ((res.ier ≠ 1 ∨ res.x * pi2_of y res.x < 0) →
      payload_fixed_stages y res true = PayloadResult.nan)
  ∧ (res.ier = 1 → ¬ res.x * pi2_of y res.x < 0 →
      payload_fixed_stages y res true
        = PayloadResult.triple (res.x * pi2_of y res.x) res.x
            (pi2_of y res.x)) :=
  payload_fixed_stages_cases y res

/-- Witness for C9: a failed solve (`ier = 0`) yields the scalar sentinel,
a successful one (`ier = 1`, `pi_1 = 1`, `y = 1`) yields the tuple. -/
theorem payload_return_shape_witness :
    payload_fixed_stages 1 ⟨1, 0⟩ true = PayloadResult.nan ∧
    payload_fixed_stages 1 ⟨1, 1⟩ true
      = PayloadResult.triple (1 * pi2_of 1 1) 1 (pi2_of 1 1) :=
  ⟨(payload_return_shape 1 ⟨1, 0⟩).1 (Or.inl (by decide)),
   (payload_return_shape 1 ⟨1, 1⟩).2 rfl
     (by rw [pi2_of]; norm_num)⟩

/-- C4: round-trip consistency: whenever `payload_fixed_stages` succeeds
with `return_all_pis = True` (returning a tuple), and the root-finder
outcome honestly solves `root_fun` (`ier = 1 → root_fun(x) = 0`, the
idealization of scipy's convergence flag), the returned values satisfy
`pi_2 = (y+1) - y/pi_1`, `pi_star = pi_1 * pi_2`, and the two-stage rocket
equation at `pi_1` reproduces `dv_mission` exactly. -/
theorem payload_round_trip (c_1 c_2 e_1 e_2 y dv_mission : ℝ)
    (res : FsolveResult) (s p1 p2 : ℝ) (hdvm : 0 < dv_mission)
    (hsolver : res.ier = 1 → root_fun c_1 c_2 e_1 e_2 y dv_mission res.x = 0)
    (hsucc : payload_fixed_stages y res true = PayloadResult.triple s p1 p2) :
    p2 = pi2_of y p1 ∧ s = p1 * p2 ∧
    dv_of c_1 c_2 e_1 e_2 y p1 = dv_mission := by
  rcases eq_or_ne res.ier 1 with h1 | h1
  · rcases lt_or_le (res.x * pi2_of y res.x) 0 with hstar | hstar
    · rw [(payload_fixed_stages_cases y res).1 (Or.inr hstar)] at hsucc
      exact absurd hsucc (by simp)
    · rw [(payload_fixed_stages_cases y res).2 h1 (not_lt.mpr hstar)] at hsucc
      cases hsucc
      have hroot := hsolver h1
      rw [root_fun] at hroot
      split at hroot
      · exact absurd hroot.symm hdvm.ne
      · exact ⟨rfl, rfl, by linarith⟩
  · rw [(payload_fixed_stages_cases y res).1 (Or.inl h1)] at hsucc
    exact absurd hsucc (by simp)

/-- Witness for C4: `c_1 = c_2 = 1`, `e_1 = e_2 = 1/2`, `y = 1`,
`dv_mission = log(8/3)`, for which `pi_1 = 1/2` is an exact root. -/
theorem payload_round_trip_witness :
    pi2_of 1 (1/2) = pi2_of 1 (1/2) ∧
    (1/2 : ℝ) * pi2_of 1 (1/2) = (1/2 : ℝ) * pi2_of 1 (1/2) ∧
    dv_of 1 1 (1/2) (1/2) 1 (1/2) = Real.log (8/3) := by
  have hdvm : (0:ℝ) < Real.log (8/3) := Real.log_pos (by norm_num)
  have hroot : root_fun 1 1 (1/2) (1/2) 1 (Real.log (8/3)) (1/2) = 0 := by
    rw [root_fun]
    split
    · rename_i h
      rw [pi2_of] at h
      norm_num at h
    · rw [dv_of, pi2_of]
      have h1 : (1:ℝ)/2 + (1 - 1/2) * (1/2) = 3/4 := by norm_num
      have h2 : (1:ℝ)/2 + (1 - 1/2) * ((1 + 1) - 1 / (1/2)) = 1/2 := by
        norm_num
      rw [h1, h2]
      have h3 : ((8:ℝ)/3) = (3/4)⁻¹ * (1/2)⁻¹ := by norm_num
      rw [h3, Real.log_mul (by norm_num) (by norm_num), Real.log_inv,
        Real.log_inv]
      ring
  have hsucc : payload_fixed_stages 1 ⟨1/2, 1⟩ true
      = PayloadResult.triple ((1/2 : ℝ) * pi2_of 1 (1/2)) (1/2)
          (pi2_of 1 (1/2)) :=
    (payload_fixed_stages_cases 1 ⟨1/2, 1⟩).2 rfl (by rw [pi2_of]; norm_num)
  exact payload_round_trip 1 1 (1/2) (1/2) 1 (Real.log (8/3)) ⟨1/2, 1⟩
    ((1/2 : ℝ) * pi2_of 1 (1/2)) (1/2) (pi2_of 1 (1/2)) hdvm
    (fun _ => hroot) hsucc

/-- C3: `payload_fixed_stages` signals infeasibility by the NaN sentinel,
never by an exception: under the honest-root-finder idealization
(`ier = 1 → root_fun(x) = 0`), if `dv_mission` exceeds the theoretically
achievable delta-v `-c_1*log(e_1 + (1-e_1)*y/(y+1)) - c_2*log(e_2)` for
the given `(c_1, c_2, e_1, e_2, y)`, the call returns the sentinel for
either value of `return_all_pis` (the solver either fails, `ier ≠ 1`, or
its output yields `pi_star < 0`). -/
theorem payload_infeasible_nan (c_1 c_2 e_1 e_2 y dv_mission : ℝ)
    (res : FsolveResult) (b : Bool)
    (hc1 : 0 < c_1) (hc2 : 0 < c_2) (he1 : 0 < e_1) (he1' : e_1 < 1)
    (he2 : 0 < e_2) (he2' : e_2 < 1) (hy : 0 < y)
    (hsolver : res.ier = 1 → root_fun c_1 c_2 e_1 e_2 y dv_mission res.x = 0)
    (hdv : -c_1 * Real.log (e_1 + (1 - e_1) * (y / (y + 1)))
             - c_2 * Real.log e_2 < dv_mission) :
    payload_fixed_stages y res b = PayloadResult.nan := by
  have hy1 : (0:ℝ) < y + 1 := by linarith
  have hfrac0 : 0 < y / (y + 1) := div_pos hy hy1
  have hfrac1 : y / (y + 1) < 1 := (div_lt_one hy1).mpr (by linarith)
  have harg0 : 0 < e_1 + (1 - e_1) * (y / (y + 1)) := by nlinarith
  have harg1 : e_1 + (1 - e_1) * (y / (y + 1)) < 1 := by nlinarith
  have hl1n : Real.log (e_1 + (1 - e_1) * (y / (y + 1))) < 0 :=
    Real.log_neg harg0 harg1
  have hl2n : Real.log e_2 < 0 := Real.log_neg he2 he2'
  have hdvm : 0 < dv_mission := by nlinarith
  rcases eq_or_ne res.ier 1 with h1 | h1
  · have hroot := hsolver h1
    have hstar : res.x * pi2_of y res.x < 0 := by
      by_contra hscon
      push_neg at hscon
      rw [root_fun] at hroot
      split at hroot
      · exact absurd hroot hdvm.ne'
      · rename_i hcond
        push_neg at hcond
        obtain ⟨hx0, hA1, hA2⟩ := hcond
        rcases lt_trichotomy res.x 0 with hneg | hzero | hpos
        · have hpi2 : 0 < pi2_of y res.x := by
            rw [pi2_of]
            have : y / res.x < 0 := div_neg_of_pos_of_neg hy hneg
            linarith
          nlinarith [mul_neg_of_neg_of_pos hneg hpi2]
        · exact hx0 hzero
        · have hpi2 : 0 ≤ pi2_of y res.x := by
            by_contra hps
            push_neg at hps
            nlinarith [mul_neg_of_pos_of_neg hpos hps]
          have hdivle : y / res.x ≤ y + 1 := by
            rw [pi2_of] at hpi2
            linarith
          have hyle : y ≤ (y + 1) * res.x := by
            have := (div_le_iff hpos).mp hdivle
            linarith [this]
          have hp1ge : y / (y + 1) ≤ res.x := by
            rw [div_le_iff hy1]
            nlinarith
          have hA1ge : e_1 + (1 - e_1) * (y / (y + 1))
              ≤ e_1 + (1 - e_1) * res.x := by nlinarith
          have hlog1 : Real.log (e_1 + (1 - e_1) * (y / (y + 1)))
              ≤ Real.log (e_1 + (1 - e_1) * res.x) :=
            Real.log_le_log harg0 hA1ge
          have hA2ge : e_2 ≤ e_2 + (1 - e_2) * pi2_of y res.x := by nlinarith
          have hlog2 : Real.log e_2
              ≤ Real.log (e_2 + (1 - e_2) * pi2_of y res.x) :=
            Real.log_le_log he2 hA2ge
          rw [dv_of] at hroot
          nlinarith [mul_le_mul_of_nonneg_left hlog1 hc1.le,
            mul_le_mul_of_nonneg_left hlog2 hc2.le]
    simp [payload_fixed_stages, h1, hstar]
  · simp [payload_fixed_stages, h1]

/-- Witness for C3: a failed solve (`ier = 0`) for an over-ambitious
mission (`dv_mission = 10` with `c_1 = c_2 = 1`, `e_1 = e_2 = 1/2`,
`y = 1`) returns the sentinel. -/
theorem payload_infeasible_nan_witness :
    payload_fixed_stages 1 ⟨1/2, 0⟩ false = PayloadResult.nan := by
  have hdv : -1 * Real.log (1/2 + (1 - 1/2) * (1 / (1 + 1)))
      - 1 * Real.log (1/2) < (10:ℝ) := by
    have b1 := Real.log_le_sub_one_of_pos (show (0:ℝ) < ((3:ℝ)/4)⁻¹ by norm_num)
    rw [Real.log_inv] at b1
    have b2 := Real.log_le_sub_one_of_pos (show (0:ℝ) < ((1:ℝ)/2)⁻¹ by norm_num)
    rw [Real.log_inv] at b2
    have harg : (1:ℝ)/2 + (1 - 1/2) * (1 / (1 + 1)) = 3/4 := by norm_num
    rw [harg]
    norm_num at b1 b2
    linarith
  exact payload_infeasible_nan 1 1 (1/2) (1/2) 1 10 ⟨1/2, 0⟩ false
    (by norm_num) (by norm_num) (by norm_num) (by norm_num) (by norm_num)
    (by norm_num) (by norm_num) (fun h => absurd h (by decide)) hdv

/-- Helper: `np_interp` over the consecutive integer sample points
`s, s+1, ..., s+m-1` clamps to the first value for `x ≤ s`. -/
lemma np_interp_head_clamp (x : ℚ) (s m : ℕ) (ys : List ℚ) (hm : 1 ≤ m)
    (hlen : ys.length = m) (hx : x ≤ (s : ℚ)) :
    np_interp x ((List.range' s m).map (fun n : ℕ => (n : ℚ))) ys
      = ys.headD 0 := by
  obtain ⟨m', rfl⟩ : ∃ m', m = m' + 1 := ⟨m - 1, by omega⟩
  rw [List.range'_succ, List.map_cons]
  cases ys with
  | nil => simp at hlen
  | cons y1 t =>
    cases m' with
    | zero =>
      cases t with
      | nil => rfl
      | cons a b => simp at hlen
    | succ m'' =>
      cases t with
      | nil => simp at hlen
      | cons y2 t' =>
        rw [List.range'_succ, List.map_cons]
        rw [np_interp]
        rw [if_pos hx]
        rfl

/-- Helper: `np_interp` over consecutive integer sample points clamps to
the last value for `x ≥ s+m-1`. -/
lemma np_interp_last_clamp (x : ℚ) (s m : ℕ) (ys : List ℚ) (hm : 1 ≤ m)
    (hlen : ys.length = m) (hx : ((s + m - 1 : ℕ) : ℚ) ≤ x) :
    np_interp x ((List.range' s m).map (fun n : ℕ => (n : ℚ))) ys
      = ys.getLastD 0 := by
  induction m generalizing s ys with
  | zero => omega
  | succ m' ih =>
    cases ys with
    | nil => simp at hlen
    | cons y1 t =>
      rw [List.range'_succ, List.map_cons]
      cases m' with
      | zero =>
        cases t with
        | nil => rfl
        | cons a b => simp at hlen
      | succ m'' =>
        cases t with
        | nil => simp at hlen
        | cons y2 t' =>
          rw [List.range'_succ, List.map_cons]
          rw [np_interp]
          have hcast : ((s + (m'' + 1 + 1) - 1 : ℕ) : ℚ) = (s : ℚ) + (m'' + 1) := by
            rw [show s + (m'' + 1 + 1) - 1 = s + m'' + 1 from by omega]
            push_cast
            ring
          rw [hcast] at hx
          have h0 : ¬ x ≤ (s : ℚ) := by
            push_neg
            have hpos : (0 : ℚ) < (m'' : ℚ) + 1 := by positivity
            linarith
          rw [if_neg h0]
          by_cases h1 : x ≤ ((s + 1 : ℕ) : ℚ)
          · -- forces m'' = 0 and x = s + 1
            have hm0 : m'' = 0 := by
              by_contra hm0
              have h2 : (1:ℚ) ≤ (m'' : ℚ) := by
                exact_mod_cast Nat.one_le_iff_ne_zero.mpr hm0
              have : ((s + 1 : ℕ) : ℚ) < (s : ℚ) + (m'' + 1) := by
                push_cast
                linarith
              linarith
            subst hm0
            have ht' : t' = [] := by
              cases t' with
              | nil => rfl
              | cons a b => simp at hlen
            subst ht'
            have hx1 : x = ((s + 1 : ℕ) : ℚ) := by
              push_cast at hx ⊢
              push_cast at h1
              linarith
            rw [if_pos h1, hx1]
            push_cast
            have hden : ((s : ℚ) + 1) - (s : ℚ) = 1 := by ring
            rw [List.getLastD_cons, List.getLastD_cons, List.getLastD_nil]
            field_simp
          · rw [if_neg h1]
            rw [← List.map_cons, ← List.range'_succ]
            have hxs : ((s + 1 + (m'' + 1) - 1 : ℕ) : ℚ) ≤ x := by
              rw [show s + 1 + (m'' + 1) - 1 = s + m'' + 1 from by omega]
              push_cast
              linarith
            rw [ih (s + 1) (y2 :: t') (by omega) (by simpa using hlen) hxs]
            rw [List.getLastD_eq_getLast?, List.getLastD_eq_getLast?,
              List.getLast?_cons_cons]

/-- Helper: `np_interp` over consecutive integer sample points is the
linear interpolant on each unit segment `[k, k+1]` inside the table. -/
lemma np_interp_seg_int (x : ℚ) (k : ℕ) : ∀ (s m : ℕ) (ys : List ℚ),
    ys.length = m → s ≤ k → k + 1 < s + m → (k : ℚ) ≤ x → x ≤ (k : ℚ) + 1 →
    np_interp x ((List.range' s m).map (fun n : ℕ => (n : ℚ))) ys
      = ys.getD (k - s) 0
        + (ys.getD (k + 1 - s) 0 - ys.getD (k - s) 0) * (x - (k : ℚ)) := by
  intro s m
  induction m generalizing s with
  | zero => intro ys _ _ hkm _ _; omega
  | succ m' ih =>
    intro ys hlen hks hkm hxl hxr
    have hm' : 1 ≤ m' := by omega
    obtain ⟨m'', rfl⟩ : ∃ m'', m' = m'' + 1 := ⟨m' - 1, by omega⟩
    cases ys with
    | nil => simp at hlen
    | cons y1 t =>
      cases t with
      | nil => simp at hlen
      | cons y2 t' =>
        rw [List.range'_succ, List.map_cons, List.range'_succ, List.map_cons]
        rw [np_interp]
        rcases Nat.eq_or_lt_of_le hks with hsk | hsk
        · -- k = s : the first segment
          subst hsk
          rw [show s - s = 0 from by omega, show s + 1 - s = 1 from by omega]
          by_cases h0 : x ≤ (s : ℚ)
          · have hxk : x = (s : ℚ) := le_antisymm h0 hxl
            rw [if_pos h0, hxk]
            simp [List.getD]
          · rw [if_neg h0]
            have h1 : x ≤ ((s + 1 : ℕ) : ℚ) := by push_cast; linarith
            rw [if_pos h1]
            simp only [List.getD_cons_zero, List.getD_cons_succ]
            push_cast
            have hden : ((s : ℚ) + 1) - (s : ℚ) = 1 := by ring
            rw [hden]
            ring
        · -- s < k : step into the tail
          have h0 : ¬ x ≤ (s : ℚ) := by
            push_neg
            have : ((s : ℚ) + 1) ≤ (k : ℚ) := by exact_mod_cast hsk
            linarith
          rw [if_neg h0]
          by_cases h1 : x ≤ ((s + 1 : ℕ) : ℚ)
          · -- forces x = s + 1 = k
            have hk1 : (k : ℚ) ≤ ((s + 1 : ℕ) : ℚ) := le_trans hxl h1
            have hk2 : k = s + 1 := by
              have := Nat.cast_le.mp hk1
              omega
            have hxk : x = (k : ℚ) := by
              refine le_antisymm ?_ hxl
              rw [hk2]
              exact_mod_cast h1
            rw [if_pos h1, hxk, hk2]
            rw [show s + 1 - s = 1 from by omega, show s + 1 + 1 - s = 2 from by omega]
            simp only [List.getD_cons_succ, List.getD_cons_zero]
            push_cast
            have hden : ((s : ℚ) + 1) - (s : ℚ) = 1 := by ring
            rw [hden]
            ring
          · rw [if_neg h1]
            rw [← List.map_cons, ← List.range'_succ]
            rw [ih (s + 1) (y2 :: t') (by simpa using hlen) (by omega) (by omega)
              hxl hxr]
            rw [show k - s = k - (s + 1) + 1 from by omega,
              show k + 1 - s = k + 1 - (s + 1) + 1 from by omega,
              List.getD_cons_succ, List.getD_cons_succ]

/-- C8: `indirect_ops_cost` is `numpy.interp` piecewise-linear
interpolation over the hardcoded table at launch rates `1..12` for each
provider type, and silently clamps outside `[1, 12]`: any rate below 1
returns the table's first value, any rate above 12 the last value, with
no error path. -/
theorem indirect_ops_cost_interp :
    (∀ (t : ProviderType) (x : ℚ), x ≤ 1 →
      indirect_ops_cost x t = (ioc_data t).headD 0)
  ∧ (∀ (t : ProviderType) (x : ℚ), 12 ≤ x →
      indirect_ops_cost x t = (ioc_data t).getLastD 0)
  ∧ (∀ (t : ProviderType) (k : ℕ) (x : ℚ), 1 ≤ k → k + 1 ≤ 12 →
      (k : ℚ) ≤ x → x ≤ (k : ℚ) + 1 →
      indirect_ops_cost x t
        = (ioc_data t).getD (k - 1) 0
          + ((ioc_data t).getD k 0 - (ioc_data t).getD (k - 1) 0)
              * (x - (k : ℚ)))
  ∧ (∀ (t : ProviderType) (k : ℕ), 1 ≤ k → k ≤ 12 →
      indirect_ops_cost (k : ℚ) t = (ioc_data t).getD (k - 1) 0) := by
  have hlen : ∀ t : ProviderType, (ioc_data t).length = 12 := by
    intro t; cases t <;> rfl
  have h1 : ∀ (t : ProviderType) (x : ℚ), x ≤ 1 →
      indirect_ops_cost x t = (ioc_data t).headD 0 := by
    intro t x hx
    rw [indirect_ops_cost, launch_rate_list]
    exact np_interp_head_clamp x 1 12 (ioc_data t) (by norm_num) (hlen t)
      (by exact_mod_cast hx)
  have h2 : ∀ (t : ProviderType) (x : ℚ), 12 ≤ x →
      indirect_ops_cost x t = (ioc_data t).getLastD 0 := by
    intro t x hx
    rw [indirect_ops_cost, launch_rate_list]
    exact np_interp_last_clamp x 1 12 (ioc_data t) (by norm_num) (hlen t)
      (by norm_num; exact hx)
  have h3 : ∀ (t : ProviderType) (k : ℕ) (x : ℚ), 1 ≤ k → k + 1 ≤ 12 →
      (k : ℚ) ≤ x → x ≤ (k : ℚ) + 1 →
      indirect_ops_cost x t
        = (ioc_data t).getD (k - 1) 0
          + ((ioc_data t).getD k 0 - (ioc_data t).getD (k - 1) 0)
              * (x - (k : ℚ)) := by
    intro t k x hk1 hk12 hxl hxr
    rw [indirect_ops_cost, launch_rate_list]
    have := np_interp_seg_int x k 1 12 (ioc_data t) (hlen t) hk1 (by omega)
      hxl hxr
    rw [this, Nat.add_sub_cancel]
  refine ⟨h1, h2, h3, ?_⟩
  intro t k hk1 hk12
  rcases Nat.lt_or_ge k 12 with hlt | hge
  · rw [h3 t k (k : ℚ) hk1 (by omega) le_rfl (by linarith)]
    ring
  · have hk : k = 12 := by omega
    subst hk
    rw [h2 t ((12 : ℕ) : ℚ) (by norm_num)]
    cases t <;> rfl

/-- Witness for C8: clamping below (rate 0) and above (rate 20) the table,
the interior segment `[3,4]` at rate `7/2`, and the node at rate 5. -/
theorem indirect_ops_cost_interp_witness :
    indirect_ops_cost 0 ProviderType.A = (ioc_data ProviderType.A).headD 0 ∧
    indirect_ops_cost 20 ProviderType.B
      = (ioc_data ProviderType.B).getLastD 0 ∧
    indirect_ops_cost (7/2) ProviderType.C
      = (ioc_data ProviderType.C).getD (3 - 1) 0
        + ((ioc_data ProviderType.C).getD 3 0
            - (ioc_data ProviderType.C).getD (3 - 1) 0) * (7/2 - ((3:ℕ):ℚ)) ∧
    indirect_ops_cost ((5:ℕ):ℚ) ProviderType.A
      = (ioc_data ProviderType.A).getD (5 - 1) 0 :=
  ⟨indirect_ops_cost_interp.1 ProviderType.A 0 (by norm_num),
   indirect_ops_cost_interp.2.1 ProviderType.B 20 (by norm_num),
   indirect_ops_cost_interp.2.2.1 ProviderType.C 3 (7/2) (by norm_num)
     (by norm_num) (by norm_num) (by norm_num),
   indirect_ops_cost_interp.2.2.2 ProviderType.A 5 (by norm_num) (by norm_num)⟩
